import Mathlib

/-!
Verification of the algorithmic core of `src/app.py` (a tile-based music
player): the LRC lyrics parser/synchronizer (`LyricsTile`) and the
album-tile carousel (`ScrollableAlbumArea`).

Modelling conventions.
Python strings are `List Char`, Python `int` is `Int`, and the arithmetic
done with Python `float` is modelled by exact fraction arithmetic on pairs
`(numerator : Int, positive denominator : Nat)` (see the comments on
`pyFloat?` and `parse_lrc_time` for the one place this idealisation is
visible).  Widget-mutating methods are modelled by their effect on the
data they manage.
-/

namespace TMP

/-- ASCII whitespace characters removed by Python's `str.strip()`. -/
def isPySpace (c : Char) : Bool :=
  c = ' ' || c = '\t' || c = '\n' || c = '\x0b' || c = '\x0c' || c = '\r'

/-- Left part of Python `str.strip()`. -/
def pyStripLeft (l : List Char) : List Char := l.dropWhile isPySpace

/-- Right part of Python `str.strip()`. -/
def pyStripRight (l : List Char) : List Char := (l.reverse.dropWhile isPySpace).reverse

/-- Python `str.strip()` with no argument: drop whitespace at both ends. -/
def pyStrip (l : List Char) : List Char := pyStripRight (pyStripLeft l)

/-- Python `str.split(sep)` for a single-character separator `sep`:
`"".split(c) = [""]`, separators at the ends produce empty pieces. -/
def pySplit (sep : Char) : List Char → List (List Char)
  | [] => [[]]
  | c :: rest =>
    if c = sep then [] :: pySplit sep rest
    else
      match pySplit sep rest with
      | [] => [[c]]
      | ys :: yss => (c :: ys) :: yss

/-- Decimal digit test. -/
def isDigitChar (c : Char) : Bool := '0' ≤ c && c ≤ '9'

/-- Value of a string of decimal digits. -/
def digitsVal (l : List Char) : Nat :=
  l.foldl (fun acc c => acc * 10 + (c.toNat - '0'.toNat)) 0

/-- A non-empty all-digit string, or failure. -/
def parseDigits? (l : List Char) : Option Nat :=
  if l ≠ [] ∧ l.all isDigitChar then some (digitsVal l) else none

/-- The mantissa of a Python float literal, as an exact fraction
`(numerator, positive denominator)`: `digits`, `digits.`, `.digits` or
`digits.digits` (at least one digit overall). -/
def parseMantissa? (l : List Char) : Option (Int × Nat) :=
  match pySplit '.' l with
  | [ip] => (parseDigits? ip).map (fun n => ((n : Int), 1))
  | [ip, fp] =>
    if (ip ≠ [] ∨ fp ≠ []) ∧ ip.all isDigitChar ∧ fp.all isDigitChar then
      some (((digitsVal ip * 10 ^ fp.length + digitsVal fp : Nat) : Int), 10 ^ fp.length)
    else none
  | _ => none

/-- The (optionally signed) exponent of a Python float literal. -/
def parseExp? (l : List Char) : Option Int :=
  match l with
  | '+' :: r => (parseDigits? r).map (fun n => (n : Int))
  | '-' :: r => (parseDigits? r).map (fun n => -(n : Int))
  | r => (parseDigits? r).map (fun n => (n : Int))

/-- Unsigned part of `pyFloat?`: mantissa with optional `e`/`E` exponent.
Exponents beyond ±400 are treated as overflow to `inf` (parse failure
here, because `int()` applied to `inf` raises, landing in the same
`except` branch of `parse_lrc_time`) respectively underflow to `0.0`. -/
def pyFloatRaw? (l : List Char) : Option (Int × Nat) :=
  match pySplit 'e' (l.map fun c => if c = 'E' then 'e' else c) with
  | [m] => parseMantissa? m
  | [m, e] =>
    match parseMantissa? m, parseExp? e with
    | some qm, some qe =>
      if qm.1 = 0 then some (0, 1)
      else if qe > 400 then none
      else if qe < -400 then some (0, 1)
      else if qe ≥ 0 then some (qm.1 * (10 : Int) ^ qe.toNat, qm.2)
      else some (qm.1, qm.2 * 10 ^ (-qe).toNat)
    | _, _ => none
  | _ => none

/-- Model of Python `float(s)` on a string, as an exact fraction
`(numerator, positive denominator)`: surrounding whitespace is stripped,
an optional sign is honoured.  CPython evaluates to the nearest IEEE-754
double instead of the exact value; `inf`/`nan` inputs are mapped to
failure here because the subsequent `int()` call in `parse_lrc_time`
raises on them, reaching the same `except` branch as a parse failure.
(Underscore digit separators, accepted by CPython, are not modelled.) -/
def pyFloat? (s : List Char) : Option (Int × Nat) :=
  match pyStrip s with
  | '+' :: r => pyFloatRaw? r
  | '-' :: r => (pyFloatRaw? r).map (fun q => (-q.1, q.2))
  | r => pyFloatRaw? r

/-- Python `int()` applied to an exact fraction: truncation toward zero. -/
def pyIntTrunc (num : Int) (den : Nat) : Int := num.tdiv (den : Int)

/-- The `try` block of `LyricsTile.parse_lrc_time` (src/app.py:191-198):
`minutes, seconds = time_str[1:-1].split(':')` (failure unless exactly two
pieces), `total_seconds = float(minutes) * 60 + float(seconds)`,
`int(total_seconds * 1000)` — the fraction arithmetic below computes
`(minutes * 60 + seconds) * 1000` exactly and truncates toward zero. -/
def parse_lrc_time_opt (time_str : List Char) : Option Int :=
  match pySplit ':' ((time_str.drop 1).dropLast) with
  | [m, s] =>
    match pyFloat? m, pyFloat? s with
    | some qm, some qs =>
      some (pyIntTrunc ((qm.1 * 60 * (qs.2 : Int) + qs.1 * (qm.2 : Int)) * 1000) (qm.2 * qs.2))
    | _, _ => none
  | _ => none

/-- `LyricsTile.parse_lrc_time` (src/app.py:191-198): the bare `except`
returns `0` on any failure.  The float arithmetic of the source is
modelled by exact fractions; CPython's double rounding makes the source
return one less than this model on inputs such as `[00:02.01]`
(`int(2009.9999999999998) = 2009`), see claim C3. -/
def parse_lrc_time (time_str : List Char) : Int :=
  (parse_lrc_time_opt time_str).getD 0

theorem pyStripRight_length_le (l : List Char) : (pyStripRight l).length ≤ l.length := by
  have h0 : List.Sublist (l.reverse.dropWhile isPySpace) l.reverse :=
    List.dropWhile_sublist isPySpace
  have h := h0.length_le
  simpa [pyStripRight] using h

theorem pyStrip_length_le (l : List Char) : (pyStrip l).length ≤ l.length := by
  have h1 := pyStripRight_length_le (pyStripLeft l)
  have h0 : List.Sublist (l.dropWhile isPySpace) l := List.dropWhile_sublist isPySpace
  have h2 := h0.length_le
  simp only [pyStrip]
  exact le_trans h1 h2

/-- The `while text.startswith('[')` loop of `LyricsTile.parse_lrc`
(src/app.py:210-221), with structural fuel: repeatedly take the text up
to the first `]`, parse it as a time tag, keep the result when it is
`> 0`, then continue with the stripped remainder.  Returns the collected
tag times and the final leftover text.  Each iteration consumes at least
one character of `text`, so any fuel exceeding the text length computes
the loop's true result (`extract_go_congr` below). -/
def extract_go : Nat → List Char → List Int × List Char
  | 0, text => ([], text)
  | fuel + 1, text =>
    if text.head? = some '[' then
      match text.findIdx? (fun c => decide (c = ']')) with
      | none => ([], text)
      | some k =>
        let time_ms := parse_lrc_time (text.take (k + 1))
        let r := extract_go fuel (pyStrip (text.drop (k + 1)))
        (if time_ms > 0 then time_ms :: r.1 else r.1, r.2)
    else ([], text)

/-- The `while text.startswith('[')` loop of `LyricsTile.parse_lrc`
(src/app.py:210-221): `extract_go` with sufficient fuel. -/
def extract_time_tags (text : List Char) : List Int × List Char :=
  extract_go (text.length + 1) text

/-- The result of `extract_go` does not depend on the fuel, as long as the
fuel exceeds the length of the text. -/
theorem extract_go_congr :
    ∀ (f₁ f₂ : Nat) (text : List Char), text.length < f₁ → text.length < f₂ →
      extract_go f₁ text = extract_go f₂ text := by
  intro f₁
  induction f₁ with
  | zero => intro f₂ text h1 _; omega
  | succ n ih =>
    intro f₂ text h1 h2
    match f₂, h2 with
    | m + 1, h2 =>
      show extract_go (n + 1) text = extract_go (m + 1) text
      simp only [extract_go]
      by_cases hh : text.head? = some '['
      · simp only [hh, if_true]
        cases hf : text.findIdx? (fun c => decide (c = ']')) with
        | none => rfl
        | some k =>
          have hne : text ≠ [] := by
            intro hnil
            subst hnil
            simp at hh
          have hlen : (pyStrip (text.drop (k + 1))).length < text.length := by
            have h0 := pyStrip_length_le (text.drop (k + 1))
            have h3 : 0 < text.length := List.length_pos.mpr hne
            simp only [List.length_drop] at h0
            omega
          have := ih m (pyStrip (text.drop (k + 1))) (by omega) (by omega)
          simp only [this]
      · simp only [hh, if_false]

/-- One iteration of the `for line in lrc_text.split('\n')` loop of
`LyricsTile.parse_lrc` (src/app.py:205-226): strip the line, skip it
unless it starts with `[`, extract the time tags, and emit one
`(time_ms, text)` pair per collected tag when the leftover text is
non-empty. -/
def process_line (line : List Char) : List (Int × List Char) :=
  let l := pyStrip line
  if l.head? = some '[' then
    let r := extract_time_tags l
    if r.2 = [] then [] else r.1.map (fun t => (t, r.2))
  else []

/-- The lyric pairs accumulated by `LyricsTile.parse_lrc` before the final
sort (src/app.py:200-226). -/
def collect_lines (lrc_text : List Char) : List (Int × List Char) :=
  (pySplit '\n' lrc_text).flatMap process_line

/-- Stable insertion of a lyric pair: `x` is placed before the first
element whose timestamp is not smaller, so elements with equal timestamps
keep their original relative order. -/
def pyInsert (x : Int × List Char) : List (Int × List Char) → List (Int × List Char)
  | [] => [x]
  | y :: ys => if y.1 < x.1 then y :: pyInsert x ys else x :: y :: ys

/-- `self.lyrics_lines.sort(key=lambda x: x[0])` (src/app.py:229): Python's
`list.sort` is a stable ascending sort.  A stable ascending sort is
extensionally unique, so Timsort is modelled by stable insertion sort. -/
def pySort : List (Int × List Char) → List (Int × List Char)
  | [] => []
  | x :: xs => pyInsert x (pySort xs)

/-- `LyricsTile.parse_lrc` (src/app.py:200-229): empty input yields no
lines (`if not lrc_text: return`); otherwise the accumulated pairs are
sorted ascending by timestamp, stably. -/
def parse_lrc (lrc_text : List Char) : List (Int × List Char) :=
  if lrc_text = [] then []
  else pySort (collect_lines lrc_text)

/-- The scan of `LyricsTile.update_position` (src/app.py:263-268):
`current_line = -1`, then for each `(time, _)` with its index `i`,
`break` once `time > position`, else `current_line = i`. -/
def update_position_loop : List (Int × List Char) → Int → Int → Int → Int
  | [], _, _, cur => cur
  | (t, _) :: rest, pos, i, cur =>
    if t > pos then cur else update_position_loop rest pos (i + 1) i

/-- The `current_line` computed by `LyricsTile.update_position`
(src/app.py:259-268) for a non-empty lyric list; for an empty list the
method returns early and the active index stays at the `-1` set on track
load, which coincides with the loop's result on `[]`. -/
def update_position (lyrics_lines : List (Int × List Char)) (position : Int) : Int :=
  update_position_loop lyrics_lines position 0 (-1)

/-- Specification-side definition, from the spec's words: the index of the
last (i.e. greatest-index) line whose timestamp is `≤ position`, if any. -/
def lastIndexLE : List (Int × List Char) → Int → Option Nat
  | [], _ => none
  | l :: rest, pos =>
    match lastIndexLE rest pos with
    | some j => some (j + 1)
    | none => if l.1 ≤ pos then some 0 else none

/-- Specification-side definition of `Locate`: the index of the last line
whose timestamp is `≤ position`, or `-1` if none qualifies. -/
def Locate_spec (lyrics_lines : List (Int × List Char)) (position : Int) : Int :=
  match lastIndexLE lyrics_lines position with
  | some j => (j : Int)
  | none => -1

/-- `LyricsTile.on_lyrics_click` (src/app.py:177-189), as its effect on
the player position: the hit-tested label index `i` is guarded by
`if i < len(self.lyrics_lines)`; in range, `player.setPosition` is called
with that line's time; out of range the method falls through and the
player position is left unchanged — no exception, no error report. -/
def on_lyrics_click (lyrics_lines : List (Int × List Char)) (i : Nat) (player_pos : Int) : Int :=
  match lyrics_lines[i]? with
  | some l => l.1
  | none => player_pos

/-- The carousel state owned by `ScrollableAlbumArea`: the tile list and
`self.current_index` (a Python `int`). -/
structure Carousel (T : Type) where
  tiles : List T
  current_index : Int
deriving DecidableEq

/-- `ScrollableAlbumArea.scroll_left` (src/app.py:476-480). -/
def scroll_left {T : Type} (c : Carousel T) : Carousel T :=
  if c.tiles.length ≤ 3 then c
  else { c with current_index := (c.current_index - 1) % (c.tiles.length : Int) }

/-- `ScrollableAlbumArea.scroll_right` (src/app.py:482-486). -/
def scroll_right {T : Type} (c : Carousel T) : Carousel T :=
  if c.tiles.length ≤ 3 then c
  else { c with current_index := (c.current_index + 1) % (c.tiles.length : Int) }

/-- `ScrollableAlbumArea.update_visible_tiles` (src/app.py:501-510), as
the sequence of tiles passed to `addWidget` for columns 0,1,2:
`idx = (self.current_index + i) % len(self.tiles)` guarded by
`if idx < len(self.tiles)`.  On an empty tile list the `%` raises
`ZeroDivisionError`, modelled as `none`. -/
def update_visible_tiles {T : Type} (c : Carousel T) : Option (List T) :=
  if c.tiles.length = 0 then none
  else some ((List.range 3).filterMap (fun i : Nat =>
    c.tiles[((c.current_index + (i : Int)) % (c.tiles.length : Int)).toNat]?))

/-- `ScrollableAlbumArea.play_current` (src/app.py:488-495), as the tile
whose `clicked` signal would be emitted: `return` (no tile) when
`len(self.tiles) <= 3`, else the tile at `(self.current_index + 1) %
len(self.tiles)`. -/
def play_current {T : Type} (c : Carousel T) : Option T :=
  if c.tiles.length ≤ 3 then none
  else c.tiles[((c.current_index + 1) % (c.tiles.length : Int)).toNat]?

theorem pyInsert_perm (x : Int × List Char) (l : List (Int × List Char)) :
    List.Perm (pyInsert x l) (x :: l) := by
  induction l with
  | nil => rfl
  | cons y ys ih =>
    simp only [pyInsert]
    by_cases h : y.1 < x.1
    · simp only [h, if_true]
      exact (ih.cons y).trans (List.Perm.swap x y ys)
    · simp only [h, if_false]
      exact List.Perm.refl _

theorem pySort_perm (l : List (Int × List Char)) : List.Perm (pySort l) l := by
  induction l with
  | nil => rfl
  | cons x xs ih => exact (pyInsert_perm x (pySort xs)).trans (ih.cons x)

theorem pyInsert_sorted (x : Int × List Char) (l : List (Int × List Char))
    (h : List.Pairwise (fun a b => a.1 ≤ b.1) l) :
    List.Pairwise (fun a b => a.1 ≤ b.1) (pyInsert x l) := by
  induction l with
  | nil => simp [pyInsert]
  | cons y ys ih =>
    rcases List.pairwise_cons.mp h with ⟨hy, hys⟩
    simp only [pyInsert]
    by_cases hlt : y.1 < x.1
    · simp only [hlt, if_true]
      refine List.pairwise_cons.mpr ⟨?_, ih hys⟩
      intro z hz
      have hz' : z = x ∨ z ∈ ys := by
        have hmem := (pyInsert_perm x ys).mem_iff.mp hz
        simpa using hmem
      rcases hz' with rfl | hz'
      · exact le_of_lt hlt
      · exact hy z hz'
    · simp only [hlt, if_false]
      refine List.pairwise_cons.mpr ⟨?_, h⟩
      intro z hz
      rcases List.mem_cons.mp hz with rfl | hz'
      · exact le_of_not_lt hlt
      · exact le_trans (le_of_not_lt hlt) (hy z hz')

theorem pySort_sorted (l : List (Int × List Char)) :
    List.Pairwise (fun a b => a.1 ≤ b.1) (pySort l) := by
  induction l with
  | nil => simp [pySort]
  | cons x xs ih => exact pyInsert_sorted x (pySort xs) ih

theorem pyInsert_filter_eq (x : Int × List Char) (l : List (Int × List Char)) (t : Int)
    (hx : x.1 = t) :
    (pyInsert x l).filter (fun a => decide (a.1 = t))
      = x :: l.filter (fun a => decide (a.1 = t)) := by
  induction l with
  | nil => simp [pyInsert, List.filter_cons, hx]
  | cons y ys ih =>
    simp only [pyInsert]
    by_cases hlt : y.1 < x.1
    · have hyt : ¬ (y.1 = t) := by omega
      simp only [hlt, if_true, List.filter_cons, ih]
      simp [hyt]
    · simp only [hlt, if_false, List.filter_cons]
      simp [hx]

theorem pyInsert_filter_ne (x : Int × List Char) (l : List (Int × List Char)) (t : Int)
    (hx : ¬ x.1 = t) :
    (pyInsert x l).filter (fun a => decide (a.1 = t))
      = l.filter (fun a => decide (a.1 = t)) := by
  induction l with
  | nil => simp [pyInsert, List.filter_cons, hx]
  | cons y ys ih =>
    simp only [pyInsert]
    by_cases hlt : y.1 < x.1
    · simp only [hlt, if_true, List.filter_cons, ih]
    · simp only [hlt, if_false, List.filter_cons]
      simp [hx]

theorem pySort_filter (l : List (Int × List Char)) (t : Int) :
    (pySort l).filter (fun a => decide (a.1 = t))
      = l.filter (fun a => decide (a.1 = t)) := by
  induction l with
  | nil => rfl
  | cons x xs ih =>
    by_cases hx : x.1 = t
    · simp only [pySort, pyInsert_filter_eq x (pySort xs) t hx, ih, List.filter_cons]
      simp [hx]
    · simp only [pySort, pyInsert_filter_ne x (pySort xs) t hx, ih, List.filter_cons]
      simp [hx]

/-- C5: for every input text, the lines produced by `parse_lrc` are
sorted ascending by timestamp, and the sort is stable: for each timestamp
`t`, the lines carrying `t` appear in exactly the order in which the
parsing loop produced them (`collect_lines`). -/
theorem C5_parse_sorted_stable (lrc_text : List Char) (t : Int) :
    List.Pairwise (fun a b => a.1 ≤ b.1) (parse_lrc lrc_text) ∧
      (parse_lrc lrc_text).filter (fun a => decide (a.1 = t))
        = (collect_lines lrc_text).filter (fun a => decide (a.1 = t)) := by
  by_cases h : lrc_text = []
  · subst h
    have hc : collect_lines [] = [] := rfl
    constructor
    · simp [parse_lrc]
    · simp [parse_lrc, hc]
  · rw [parse_lrc, if_neg h]
    exact ⟨pySort_sorted _, pySort_filter _ t⟩

theorem update_position_loop_sorted (pos : Int) :
    ∀ (lines : List (Int × List Char)) (i : Int),
      List.Pairwise (fun a b => a.1 ≤ b.1) lines →
      update_position_loop lines pos i (i - 1)
        = i - 1 + (lines.countP (fun a => decide (a.1 ≤ pos)) : Int) := by
  intro lines
  induction lines with
  | nil =>
    intro i _
    simp [update_position_loop]
  | cons l rest ih =>
    intro i h
    rcases List.pairwise_cons.mp h with ⟨hl, hrest⟩
    obtain ⟨t, txt⟩ := l
    simp only [update_position_loop]
    by_cases hgt : t > pos
    · simp only [hgt, if_true]
      have hzero : rest.countP (fun a => decide (a.1 ≤ pos)) = 0 := by
        rw [List.countP_eq_zero]
        intro a ha
        have hta := hl a ha
        simp only [decide_eq_true_eq]
        simp only at hta
        omega
      have hhead : ¬ (t ≤ pos) := by omega
      rw [List.countP_cons, hzero]
      simp [hhead]
    · simp only [hgt, if_false]
      have hle : t ≤ pos := le_of_not_lt hgt
      have h2 := ih (i + 1) hrest
      have e : (i : Int) + 1 - 1 = i := by ring
      rw [e] at h2
      rw [h2, List.countP_cons]
      simp only [hle, decide_True, if_true]
      push_cast
      ring

theorem Locate_spec_count (pos : Int) :
    ∀ (lines : List (Int × List Char)),
      List.Pairwise (fun a b => a.1 ≤ b.1) lines →
      Locate_spec lines pos = (lines.countP (fun a => decide (a.1 ≤ pos)) : Int) - 1 := by
  intro lines
  induction lines with
  | nil =>
    intro _
    simp [Locate_spec, lastIndexLE]
  | cons l rest ih =>
    intro h
    rcases List.pairwise_cons.mp h with ⟨hl, hrest⟩
    have ihr := ih hrest
    cases hli : lastIndexLE rest pos with
    | none =>
      simp only [Locate_spec, hli] at ihr
      have hc : (rest.countP (fun a => decide (a.1 ≤ pos)) : Int) = 0 := by omega
      by_cases hle : l.1 ≤ pos
      · simp only [Locate_spec, lastIndexLE, hli, hle, if_true, List.countP_cons]
        simp [hle]
        omega
      · simp only [Locate_spec, lastIndexLE, hli, hle, if_false, List.countP_cons]
        simp [hle]
        omega
    | some j =>
      simp only [Locate_spec, hli] at ihr
      have hpos : 0 < rest.countP (fun a => decide (a.1 ≤ pos)) := by omega
      obtain ⟨a, ha, hap⟩ := List.countP_pos_iff.mp hpos
      have hle : l.1 ≤ pos := by
        have h1 := hl a ha
        have h2 : a.1 ≤ pos := by simpa using hap
        omega
      simp only [Locate_spec, lastIndexLE, hli, List.countP_cons]
      simp [hle]
      omega

/-- C1: on every lyric track satisfying the data-model invariant
(timestamps sorted ascending), the `current_line` computed by
`update_position` is the index of the last line whose timestamp is
`≤ position` and `-1` when no line qualifies — in particular `-1` on an
empty track and `-1` for positions below all timestamps. -/
theorem C1_update_position_locates (lines : List (Int × List Char)) (pos : Int)
    (h : List.Pairwise (fun a b => a.1 ≤ b.1) lines) :
    update_position lines pos = Locate_spec lines pos := by
  have h1 := update_position_loop_sorted pos lines 0 h
  have h2 := Locate_spec_count pos lines h
  have e : (0 : Int) - 1 = -1 := by ring
  rw [e] at h1
  rw [update_position, h1, h2]
  ring

/-- Witness for C1 at the spec's round-trip example: the track with lines
at 0, 1000 and 5000 ms is sorted, and at position 1500 the loop agrees
with the specification value. -/
theorem C1_witness :
    List.Pairwise (fun a b : Int × List Char => a.1 ≤ b.1)
        [(0, ['a']), (1000, ['b']), (5000, ['c'])] ∧
      update_position [(0, ['a']), (1000, ['b']), (5000, ['c'])] 1500
        = Locate_spec [(0, ['a']), (1000, ['b']), (5000, ['c'])] 1500 :=
  ⟨by decide, C1_update_position_locates _ _ (by decide)⟩

theorem dropWhile_cons_of_neg {p : Char → Bool} {a : Char} (t : List Char)
    (h : p a = false) : (a :: t).dropWhile p = a :: t := by
  simp [List.dropWhile_cons, h]

theorem dropWhile_eq_self_head {p : Char → Bool} {a : Char} {t : List Char}
    (h : (a :: t).dropWhile p = a :: t) : p a = false := by
  cases hv : p a
  · rfl
  · exfalso
    rw [List.dropWhile_cons] at h
    simp only [hv, if_true] at h
    have hs : List.Sublist (t.dropWhile p) t := List.dropWhile_sublist p
    have hlen := hs.length_le
    rw [h] at hlen
    simp at hlen

theorem pyStripLeft_eq_self_of_head {l : List Char}
    (h : ∀ a, l.head? = some a → isPySpace a = false) : pyStripLeft l = l := by
  cases l with
  | nil => rfl
  | cons a t => exact dropWhile_cons_of_neg t (h a rfl)

theorem pyStripRight_eq_self {l : List Char} {a : Char} (ha : l.getLast? = some a)
    (h : isPySpace a = false) : pyStripRight l = l := by
  have h2 : l.reverse.head? = some a := by simpa using ha
  cases hr : l.reverse with
  | nil =>
    rw [hr] at h2
    simp at h2
  | cons b t =>
    rw [hr] at h2
    have hb : b = a := by simpa using h2
    subst hb
    rw [pyStripRight, hr, dropWhile_cons_of_neg t h, ← hr, List.reverse_reverse]

theorem pyStripRight_eq_self_of_getLast {l : List Char}
    (h : ∀ a, l.getLast? = some a → isPySpace a = false) : pyStripRight l = l := by
  cases hg : l.getLast? with
  | none =>
    have h2 : l.reverse.head? = none := by simpa using hg
    have h3 : l.reverse = [] := by
      cases hr : l.reverse with
      | nil => rfl
      | cons b t => rw [hr] at h2; simp at h2
    have h4 : l = [] := by
      have h5 := congrArg List.reverse h3
      simpa using h5
    subst h4
    rfl
  | some a => exact pyStripRight_eq_self hg (h a hg)

theorem getLast_not_space_of_stripRight {l : List Char} (hR : pyStripRight l = l)
    {a : Char} (ha : l.getLast? = some a) : isPySpace a = false := by
  have h1 : l.reverse.dropWhile isPySpace = l.reverse := by
    have h0 := congrArg List.reverse hR
    simpa [pyStripRight] using h0
  have h2 : l.reverse.head? = some a := by simpa using ha
  cases hr : l.reverse with
  | nil =>
    rw [hr] at h2
    simp at h2
  | cons c t =>
    rw [hr] at h2
    have hc : c = a := by simpa using h2
    rw [hr] at h1
    subst hc
    exact dropWhile_eq_self_head h1

theorem pySplit_eq_singleton {sep : Char} :
    ∀ {l : List Char}, sep ∉ l → pySplit sep l = [l] := by
  intro l
  induction l with
  | nil => intro _; rfl
  | cons c rest ih =>
    intro h
    have hc : ¬ (c = sep) := fun hh => h (hh ▸ List.mem_cons_self c rest)
    simp only [pySplit, hc, if_false]
    rw [ih (fun hm => h (List.mem_cons_of_mem c hm))]

theorem findIdx_bracket (pre suf : List Char) (h : ']' ∉ pre) :
    (pre ++ ']' :: suf).findIdx? (fun c => decide (c = ']')) = some pre.length := by
  induction pre with
  | nil => simp [List.findIdx?_cons]
  | cons a t ih =>
    have ha : ¬ (a = ']') := fun hh => h (hh ▸ List.mem_cons_self a t)
    have ih2 := ih (fun hm => h (List.mem_cons_of_mem a hm))
    simp only [List.cons_append, List.findIdx?_cons]
    simp [ha, ih2]

/-- A bracketed tag string `[body]`, as appended in front of further tags
and the trailing text of an LRC line. -/
def mkTag (b : List Char) : List Char := '[' :: (b ++ [']'])

/-- The contribution of a single tag body to the `time_tags` list of
`parse_lrc`: the parsed time of `[body]` when it is `> 0`, else nothing. -/
def keptTag (b : List Char) : Option Int :=
  if parse_lrc_time (mkTag b) > 0 then some (parse_lrc_time (mkTag b)) else none

theorem extract_go_flatten :
    ∀ (bodies : List (List Char)) (fuel : Nat) (text : List Char),
      (∀ b ∈ bodies, ']' ∉ b) →
      text ≠ [] →
      text.head? ≠ some '[' →
      pyStripLeft text = text →
      pyStripRight text = text →
      ((bodies.map mkTag).flatten ++ text).length < fuel →
      extract_go fuel ((bodies.map mkTag).flatten ++ text)
        = (bodies.filterMap keptTag, text) := by
  intro bodies
  induction bodies with
  | nil =>
    intro fuel text hb hne hhead hL hR hfuel
    match fuel, hfuel with
    | f + 1, _ =>
      simp only [List.map_nil, List.flatten_nil, List.nil_append, List.filterMap_nil]
      rw [extract_go, if_neg hhead]
  | cons b bs ih =>
    intro fuel text hb hne hhead hL hR hfuel
    match fuel, hfuel with
    | f + 1, hfuel =>
      have hbb : ']' ∉ b := hb b (List.mem_cons_self b bs)
      have hbs : ∀ x ∈ bs, ']' ∉ x := fun x hx => hb x (List.mem_cons_of_mem b hx)
      have e1 : ((b :: bs).map mkTag).flatten ++ text
          = ('[' :: b) ++ (']' :: ((bs.map mkTag).flatten ++ text)) := by
        simp [mkTag, List.append_assoc]
      have hpre : ']' ∉ '[' :: b := by
        intro hm
        rcases List.mem_cons.mp hm with hm | hm
        · exact absurd hm.symm (by decide)
        · exact hbb hm
      have hfind := findIdx_bracket ('[' :: b) ((bs.map mkTag).flatten ++ text) hpre
      have e2 : ('[' :: b) ++ (']' :: ((bs.map mkTag).flatten ++ text))
          = (('[' :: b) ++ [']']) ++ ((bs.map mkTag).flatten ++ text) := by
        simp
      have hlen2 : ('[' :: b ++ [']']).length = ('[' :: b).length + 1 := by simp
      have htake : (('[' :: b) ++ (']' :: ((bs.map mkTag).flatten ++ text))).take
          (('[' :: b).length + 1) = ('[' :: b) ++ [']'] := by
        rw [e2]
        exact List.take_left' hlen2
      have hdrop : (('[' :: b) ++ (']' :: ((bs.map mkTag).flatten ++ text))).drop
          (('[' :: b).length + 1) = (bs.map mkTag).flatten ++ text := by
        rw [e2]
        exact List.drop_left' hlen2
      have hmk : ('[' :: b) ++ [']'] = mkTag b := by simp [mkTag]
      -- the stripped remainder is unchanged
      obtain ⟨a, ha⟩ : ∃ a, text.getLast? = some a := by
        cases hg : text.getLast? with
        | none =>
          exfalso
          have h2 : text.reverse.head? = none := by simpa using hg
          have h3 : text.reverse = [] := by
            cases hr : text.reverse with
            | nil => rfl
            | cons c t => rw [hr] at h2; simp at h2
          have h4 : text = [] := by
            have h5 := congrArg List.reverse h3
            simpa using h5
          exact hne h4
        | some a => exact ⟨a, rfl⟩
      have hXlast : ((bs.map mkTag).flatten ++ text).getLast? = some a := by
        simp [List.getLast?_append, ha]
      have hstrip : pyStrip ((bs.map mkTag).flatten ++ text)
          = (bs.map mkTag).flatten ++ text := by
        have hleft : pyStripLeft ((bs.map mkTag).flatten ++ text)
            = (bs.map mkTag).flatten ++ text := by
          cases bs with
          | nil =>
            simpa using hL
          | cons b' bs' =>
            apply pyStripLeft_eq_self_of_head
            intro c hc
            have hc2 : c = '[' := by
              simp [mkTag] at hc
              exact hc.symm
            subst hc2
            rfl
        have hright : pyStripRight ((bs.map mkTag).flatten ++ text)
            = (bs.map mkTag).flatten ++ text :=
          pyStripRight_eq_self hXlast (getLast_not_space_of_stripRight hR ha)
        rw [pyStrip, hleft, hright]
      have hXfuel : ((bs.map mkTag).flatten ++ text).length < f := by
        have hw : (((b :: bs).map mkTag).flatten ++ text).length
            = b.length + 2 + ((bs.map mkTag).flatten ++ text).length := by
          simp [mkTag]
          omega
        omega
      have ihx := ih f text hbs hne hhead hL hR hXfuel
      have hH : (('[' :: b) ++ (']' :: ((bs.map mkTag).flatten ++ text))).head? = some '[' := by
        simp
      rw [e1]
      simp only [extract_go]
      rw [if_pos hH]
      simp only [hfind]
      rw [htake, hmk, hdrop, hstrip, ihx]
      rw [List.filterMap_cons]
      cases hk : keptTag b with
      | none =>
        have hx : ¬ (parse_lrc_time (mkTag b) > 0) := by
          intro hgt
          rw [keptTag, if_pos hgt] at hk
          exact Option.noConfusion hk
        simp [hx]
      | some v =>
        have hx : parse_lrc_time (mkTag b) > 0 := by
          by_contra hgt
          rw [keptTag, if_neg hgt] at hk
          exact Option.noConfusion hk
        have hv : v = parse_lrc_time (mkTag b) := by
          rw [keptTag, if_pos hx] at hk
          exact (Option.some.inj hk).symm
        subst hv
        simp [hx]

/-- Counterexample to C2 as stated: a valid zero-time tag with non-empty
trailing text produces no lyric line at all, because `parse_lrc` keeps
only tags whose parsed time is strictly positive (src/app.py:219) and a
valid `[00:00.00]` parses to the same `0` as a malformed tag. -/
theorem C2_counterexample :
    parse_lrc ("[00:00.00]hello".toList) = [] ∧
      ¬ ((0, "hello".toList) ∈ parse_lrc ("[00:00.00]hello".toList)) := by
  constructor
  · decide
  · decide

/-- C2 as amended: for a line made of one or more leading bracketed tag
bodies (no `]` inside a body) followed by non-empty trailing text that
does not itself begin with `[` and carries no surrounding whitespace and
no newline, `parse_lrc` emits exactly one lyric line per tag whose parsed
time is strictly positive, each carrying the same trailing text; tags
parsing to `0` — malformed ones and valid zero-time tags alike — are
dropped. -/
theorem C2_parse_multi_tag (bodies : List (List Char)) (text : List Char)
    (h0 : bodies ≠ [])
    (hb : ∀ b ∈ bodies, ']' ∉ b)
    (hne : text ≠ [])
    (hhead : text.head? ≠ some '[')
    (hL : pyStripLeft text = text)
    (hR : pyStripRight text = text)
    (hnl : '\n' ∉ (bodies.map mkTag).flatten ++ text) :
    List.Perm (parse_lrc ((bodies.map mkTag).flatten ++ text))
      (bodies.filterMap (fun b => (keptTag b).map (fun v => (v, text)))) := by
  have hlne : (bodies.map mkTag).flatten ++ text ≠ [] := by
    intro hb0
    exact hne (List.append_eq_nil.mp hb0).2
  have hsplit : pySplit '\n' ((bodies.map mkTag).flatten ++ text)
      = [(bodies.map mkTag).flatten ++ text] := pySplit_eq_singleton hnl
  have hcollect : collect_lines ((bodies.map mkTag).flatten ++ text)
      = process_line ((bodies.map mkTag).flatten ++ text) := by
    rw [collect_lines, hsplit]
    simp [List.flatMap]
  obtain ⟨a, ha⟩ : ∃ a, text.getLast? = some a := by
    cases hg : text.getLast? with
    | none =>
      exfalso
      have h2 : text.reverse.head? = none := by simpa using hg
      have h3 : text.reverse = [] := by
        cases hr : text.reverse with
        | nil => rfl
        | cons c t => rw [hr] at h2; simp at h2
      have h4 : text = [] := by
        have h5 := congrArg List.reverse h3
        simpa using h5
      exact hne h4
    | some a => exact ⟨a, rfl⟩
  obtain ⟨b, bs, hbl⟩ : ∃ b bs, bodies = b :: bs := by
    cases bodies with
    | nil => exact absurd rfl h0
    | cons b bs => exact ⟨b, bs, rfl⟩
  subst hbl
  have hLineHead : (((b :: bs).map mkTag).flatten ++ text).head? = some '[' := by
    simp [mkTag]
  have hstrip : pyStrip (((b :: bs).map mkTag).flatten ++ text)
      = ((b :: bs).map mkTag).flatten ++ text := by
    have hleft : pyStripLeft (((b :: bs).map mkTag).flatten ++ text)
        = ((b :: bs).map mkTag).flatten ++ text := by
      apply pyStripLeft_eq_self_of_head
      intro c hc
      rw [hLineHead] at hc
      have hc2 : c = '[' := by simpa using hc.symm
      subst hc2
      rfl
    have hXlast : (((b :: bs).map mkTag).flatten ++ text).getLast? = some a := by
      simp [List.getLast?_append, ha]
    have hright : pyStripRight (((b :: bs).map mkTag).flatten ++ text)
        = ((b :: bs).map mkTag).flatten ++ text :=
      pyStripRight_eq_self hXlast (getLast_not_space_of_stripRight hR ha)
    rw [pyStrip, hleft, hright]
  have hext : extract_time_tags (((b :: bs).map mkTag).flatten ++ text)
      = ((b :: bs).filterMap keptTag, text) := by
    rw [extract_time_tags]
    exact extract_go_flatten (b :: bs) ((((b :: bs).map mkTag).flatten ++ text).length + 1)
      text hb hne hhead hL hR (by omega)
  have hproc : process_line (((b :: bs).map mkTag).flatten ++ text)
      = ((b :: bs).filterMap keptTag).map (fun t => (t, text)) := by
    simp only [process_line, hstrip, hLineHead, hext]
    simp [hne]
  rw [parse_lrc, if_neg hlne, hcollect, hproc]
  have hmap : ((b :: bs).filterMap keptTag).map (fun t => (t, text))
      = (b :: bs).filterMap (fun x => (keptTag x).map (fun v => (v, text))) := by
    rw [List.map_filterMap]
  rw [← hmap]
  exact pySort_perm _

/-- Witness for C2's amended statement at the spec's own example: the
multi-tag line `[00:01.00][00:02.00]Hello` yields exactly the lines
`(1000, "Hello")` and `(2000, "Hello")`. -/
theorem C2_witness :
    List.Perm (parse_lrc ("[00:01.00][00:02.00]Hello".toList))
      [(1000, "Hello".toList), (2000, "Hello".toList)] := by
  have h := C2_parse_multi_tag ["00:01.00".toList, "00:02.00".toList] ("Hello".toList)
    (by decide) (by decide) (by decide) (by decide) (by decide) (by decide) (by decide)
  have e1 : ((["00:01.00".toList, "00:02.00".toList].map mkTag).flatten ++ "Hello".toList)
      = "[00:01.00][00:02.00]Hello".toList := by decide
  have e2 : (["00:01.00".toList, "00:02.00".toList].filterMap
      (fun b => (keptTag b).map (fun v => (v, "Hello".toList))))
      = [(1000, "Hello".toList), (2000, "Hello".toList)] := by decide
  rw [e1, e2] at h
  exact h

/-- C3: supporting evaluation for the code bug.  Under the exact
truncation rule stated by the spec, `[01:02.50]` parses to 62500 ms and
`[00:02.01]` parses to 2010 ms.  The source instead computes with IEEE-754
doubles, where `(float('00')*60 + float('02.01'))*1000` evaluates to
`2009.9999999999998` and `int()` truncates it to 2009 — off by one
against the claim's exact rule. -/
theorem C3_exact_truncation_values :
    parse_lrc_time ("[01:02.50]".toList) = 62500 ∧
      parse_lrc_time ("[00:02.01]".toList) = 2010 := by
  constructor
  · decide
  · decide

/-- Counterexample to C4 as stated: clicking label index 1 on a one-line
track leaves the player position unchanged (999).  The handler's
`if i < len(self.lyrics_lines)` guard simply falls through on an
out-of-range index — it silently does nothing and reports no error,
contrary to the claimed distinct OutOfRange condition. -/
theorem C4_counterexample :
    on_lyrics_click [((1000 : Int), ['a'])] 1 999 = 999 := by decide

/-- C4 as amended: for an in-range label index the click handler seeks to
the selected line's timestamp; for an out-of-range index it silently does
nothing (player position unchanged), with no error condition. -/
theorem C4_click_effect (lyrics_lines : List (Int × List Char)) (i : Nat) (player_pos : Int) :
    (∀ h : i < lyrics_lines.length,
        on_lyrics_click lyrics_lines i player_pos = (lyrics_lines.get ⟨i, h⟩).1) ∧
      (lyrics_lines.length ≤ i → on_lyrics_click lyrics_lines i player_pos = player_pos) := by
  constructor
  · intro h
    simp [on_lyrics_click, List.getElem?_eq_getElem h]
  · intro h
    simp [on_lyrics_click, List.getElem?_eq_none h]

/-- Witness for C4: on the one-line track `[(1000, "a")]`, clicking index
0 seeks to 1000 ms and clicking index 1 leaves the position at 5. -/
theorem C4_witness :
    on_lyrics_click [((1000 : Int), ['a'])] 0 5 = 1000 ∧
      on_lyrics_click [((1000 : Int), ['a'])] 1 5 = 5 := by
  constructor
  · have h := (C4_click_effect [((1000 : Int), ['a'])] 0 5).1 (by decide)
    simpa using h
  · exact (C4_click_effect [((1000 : Int), ['a'])] 1 5).2 (by decide)

/-- C6: rotation is a no-op when at most 3 tiles are held; otherwise it
moves `current_index` by ∓1 modulo the tile count; the tile sequence is
never changed. -/
theorem C6_rotate {T : Type} (c : Carousel T) :
    (c.tiles.length ≤ 3 → scroll_left c = c ∧ scroll_right c = c) ∧
      (3 < c.tiles.length →
        (scroll_left c).current_index = (c.current_index - 1) % (c.tiles.length : Int) ∧
          (scroll_right c).current_index = (c.current_index + 1) % (c.tiles.length : Int)) ∧
      (scroll_left c).tiles = c.tiles ∧ (scroll_right c).tiles = c.tiles := by
  refine ⟨?_, ?_, ?_, ?_⟩
  · intro h
    constructor
    · rw [scroll_left, if_pos h]
    · rw [scroll_right, if_pos h]
  · intro h
    have h2 : ¬ (c.tiles.length ≤ 3) := by omega
    constructor
    · rw [scroll_left, if_neg h2]
    · rw [scroll_right, if_neg h2]
  · rw [scroll_left]
    split
    · rfl
    · rfl
  · rw [scroll_right]
    split
    · rfl
    · rfl

/-- Witness for C6: with 3 tiles a rotation is the identity; with 5 tiles
a right rotation moves the start index from 0 to 1. -/
theorem C6_witness :
    scroll_left (⟨[0, 1, 2], 0⟩ : Carousel Nat) = ⟨[0, 1, 2], 0⟩ ∧
      (scroll_right (⟨[0, 1, 2, 3, 4], 0⟩ : Carousel Nat)).current_index = 1 := by
  constructor
  · exact ((C6_rotate (⟨[0, 1, 2], 0⟩ : Carousel Nat)).1 (by decide)).1
  · have h := ((C6_rotate (⟨[0, 1, 2, 3, 4], 0⟩ : Carousel Nat)).2.1 (by decide)).2
    rw [h]
    decide

theorem filterMap_eq_map_of_forall {α β : Type} (l : List α) (f : α → Option β) (g : α → β)
    (h : ∀ a ∈ l, f a = some (g a)) : l.filterMap f = l.map g := by
  induction l with
  | nil => rfl
  | cons a t ih =>
    rw [List.filterMap_cons, h a (List.mem_cons_self a t), List.map_cons,
      ih (fun x hx => h x (List.mem_cons_of_mem a hx))]

/-- Counterexample to C7 as stated: a carousel holding the single tile `0`
lays out that tile three times (`[0, 0, 0]`), not the full set `[0]` with
no repeats, because the loop places `tiles[(start+i) % 1]` for each of the
three columns; and on an empty carousel `% len(self.tiles)` raises
`ZeroDivisionError` instead of returning the empty sequence. -/
theorem C7_counterexample :
    update_visible_tiles (⟨[0], 0⟩ : Carousel Nat) = some [0, 0, 0] ∧
      ¬ update_visible_tiles (⟨[0], 0⟩ : Carousel Nat) = some [0] ∧
      update_visible_tiles (⟨([] : List Nat), 0⟩) = none := by
  refine ⟨by decide, by decide, by decide⟩

/-- C7 as amended: on a non-empty carousel the visible sequence is always
the three tiles `tiles[(start_index+i) mod len]` for `i = 0, 1, 2` (for
more than 3 tiles this is the claimed window of 3 distinct tiles; for
exactly 3 tiles at start index 0 it is the full set in insertion order;
for 1 or 2 tiles the wrap-around repeats tiles); on an empty carousel the
layout update fails with `ZeroDivisionError` rather than showing an empty
sequence. -/
theorem C7_window {T : Type} (c : Carousel T) (d : T) :
    (c.tiles.length = 0 → update_visible_tiles c = none) ∧
      (0 < c.tiles.length → update_visible_tiles c
          = some ((List.range 3).map (fun i : Nat =>
              c.tiles.getD (((c.current_index + (i : Int)) % (c.tiles.length : Int)).toNat) d))) ∧
      (c.tiles.length = 3 → c.current_index = 0 → update_visible_tiles c = some c.tiles) ∧
      (∀ x, c.tiles = [x] → update_visible_tiles c = some [x, x, x]) ∧
      (∀ x y, c.tiles = [x, y] → c.current_index = 0 → update_visible_tiles c = some [x, y, x]) := by
  have hwin : 0 < c.tiles.length → update_visible_tiles c
      = some ((List.range 3).map (fun i : Nat =>
          c.tiles.getD (((c.current_index + (i : Int)) % (c.tiles.length : Int)).toNat) d)) := by
    intro h
    have hpos : (0 : Int) < (c.tiles.length : Int) := by exact_mod_cast h
    have hidx : ∀ i : Nat,
        ((c.current_index + (i : Int)) % (c.tiles.length : Int)).toNat < c.tiles.length := by
      intro i
      have h1 := Int.emod_nonneg (c.current_index + (i : Int)) (ne_of_gt hpos)
      have h2 := Int.emod_lt_of_pos (c.current_index + (i : Int)) hpos
      omega
    rw [update_visible_tiles, if_neg (by omega)]
    congr 1
    apply filterMap_eq_map_of_forall
    intro i _
    have hlt := hidx i
    rw [List.getElem?_eq_getElem hlt]
    congr 1
    rw [List.getD_eq_getElem?_getD, List.getElem?_eq_getElem hlt]
    rfl
  refine ⟨?_, hwin, ?_, ?_, ?_⟩
  · intro h
    rw [update_visible_tiles, if_pos h]
  · intro h3 hci
    obtain ⟨a, b, c2, he⟩ := List.length_eq_three.mp h3
    rw [hwin (by omega), he, hci]
    have hr : List.range 3 = [0, 1, 2] := rfl
    rw [hr]
    norm_num
    rfl
  · intro x hx
    rw [hwin (by rw [hx]; simp), hx]
    have hr : List.range 3 = [0, 1, 2] := rfl
    rw [hr]
    norm_num [Int.emod_one]
  · intro x y hxy hci
    rw [hwin (by rw [hxy]; simp), hxy, hci]
    have hr : List.range 3 = [0, 1, 2] := rfl
    rw [hr]
    norm_num

/-- Witness for C7: with 5 tiles and start index 1 the visible window is
the tiles at positions 1, 2, 3. -/
theorem C7_witness :
    update_visible_tiles (⟨[10, 11, 12, 13, 14], 1⟩ : Carousel Nat) = some [11, 12, 13] := by
  have h := (C7_window (⟨[10, 11, 12, 13, 14], 1⟩ : Carousel Nat) 0).2.1 (by decide)
  rw [h]
  decide

/-- Counterexample to C8 as stated: a carousel holding one tile returns no
centered item at all — `play_current` returns early whenever
`len(self.tiles) <= 3`, so with 1 to 3 tiles nothing is activated,
contrary to the claim that only an empty carousel yields None. -/
theorem C8_counterexample :
    play_current (⟨[5], 0⟩ : Carousel Nat) = none ∧
      ¬ (play_current (⟨[5], 0⟩ : Carousel Nat)).isSome := by
  refine ⟨by decide, by decide⟩

/-- C8 as amended: `play_current` activates nothing whenever the carousel
holds at most 3 tiles (even though 1-3 tiles would make a center
well-defined); with more than 3 tiles it activates the tile at window
offset 1 — `tiles[(current_index + 1) mod len]` — and that tile always
exists. -/
theorem C8_center {T : Type} (c : Carousel T) :
    (c.tiles.length ≤ 3 → play_current c = none) ∧
      (3 < c.tiles.length →
        play_current c = c.tiles[((c.current_index + 1) % (c.tiles.length : Int)).toNat]? ∧
          (play_current c).isSome) := by
  constructor
  · intro h
    rw [play_current, if_pos h]
  · intro h
    have h2 : ¬ (c.tiles.length ≤ 3) := by omega
    refine ⟨by rw [play_current, if_neg h2], ?_⟩
    rw [play_current, if_neg h2]
    have hpos : (0 : Int) < (c.tiles.length : Int) := by exact_mod_cast (by omega : 0 < c.tiles.length)
    have hidx : ((c.current_index + 1) % (c.tiles.length : Int)).toNat < c.tiles.length := by
      have h1 := Int.emod_nonneg (c.current_index + 1) (ne_of_gt hpos)
      have hlt := Int.emod_lt_of_pos (c.current_index + 1) hpos
      omega
    rw [List.getElem?_eq_getElem hidx]
    rfl

/-- Witness for C8: with 5 tiles at start index 0 the activated center is
the tile at position 1. -/
theorem C8_witness :
    play_current (⟨[0, 1, 2, 3, 4], 0⟩ : Carousel Nat) = some 1 := by
  have h := ((C8_center (⟨[0, 1, 2, 3, 4], 0⟩ : Carousel Nat)).2 (by decide)).1
  rw [h]
  decide

/-- Counterexample to C9 as stated: starting from 5 tiles at index 0,
after one `scroll_right` and then two `scroll_left` calls the visible
window is `[4, 0, 1]`, not `[0, 1, 2]` — two left rotations from start
index 1 wrap around to index 4. -/
theorem C9_counterexample :
    ¬ (update_visible_tiles
          (scroll_left (scroll_left (scroll_right (⟨[0, 1, 2, 3, 4], 0⟩ : Carousel Nat))))
        = some [0, 1, 2]) := by decide

/-- C9 as amended: with 5 tiles, window 3 and start index 0, the visible
window is `[0, 1, 2]`; after `scroll_right` it is `[1, 2, 3]`; one
`scroll_left` from there returns it to `[0, 1, 2]`, and a second
`scroll_left` wraps around to `[4, 0, 1]`. -/
theorem C9_carousel_scenario :
    update_visible_tiles (⟨[0, 1, 2, 3, 4], 0⟩ : Carousel Nat) = some [0, 1, 2] ∧
      update_visible_tiles (scroll_right (⟨[0, 1, 2, 3, 4], 0⟩ : Carousel Nat))
        = some [1, 2, 3] ∧
      update_visible_tiles (scroll_left (scroll_right (⟨[0, 1, 2, 3, 4], 0⟩ : Carousel Nat)))
        = some [0, 1, 2] ∧
      update_visible_tiles
          (scroll_left (scroll_left (scroll_right (⟨[0, 1, 2, 3, 4], 0⟩ : Carousel Nat))))
        = some [4, 0, 1] := by
  refine ⟨by decide, by decide, by decide, by decide⟩

/-- Counterexample to C10 as stated: `parse_lrc_time` is not non-negative
on every input — a tag with a signed minutes field parses to a negative
number of milliseconds. -/
theorem C10_counterexample :
    parse_lrc_time ("[-01:00.00]".toList) = -60000 ∧
      parse_lrc_time ("[-01:00.00]".toList) < 0 := by
  constructor
  · decide
  · decide

/-- C10 as amended: `parse_lrc_time` is total — every failure of its `try`
block yields the sentinel `0`, never an exception — but it can return
negative values; a valid zero tag `[00:00.00]` also yields `0`, so
`parse_lrc`, which keeps only strictly positive times, treats
`[00:00.00]text` exactly like a line with a malformed tag and emits
nothing for either. -/
theorem C10_total_sentinel (s : List Char) :
    (parse_lrc_time_opt s = none → parse_lrc_time s = 0) ∧
      parse_lrc_time_opt ("[00:00.00]".toList) = some 0 ∧
      parse_lrc ("[00:00.00]hello".toList) = parse_lrc ("[zz]hello".toList) ∧
      parse_lrc ("[00:00.00]hello".toList) = [] := by
  refine ⟨?_, by decide, by decide, by decide⟩
  intro h
  rw [parse_lrc_time, h]
  rfl

/-- Witness for C10: the malformed tag `[zz]` fails to parse and yields
the sentinel `0`. -/
theorem C10_witness : parse_lrc_time ("[zz]".toList) = 0 :=
  (C10_total_sentinel ("[zz]".toList)).1 (by decide)


end TMP
